import Mathlib

/-!
# Cohort Splitter — verification of `slideflow/dataset/dataset_utils.py`

Shallow embedding of the patient-split logic:

* `split_patients` (spec name `split_plain`),
* `split_patients_balanced` (spec name `split_balanced`),
* `split_patients_preserved_site` (spec name `split_preserved_site`).

A patient dictionary is modelled as an association list from patient
identifier to a record, itself an association list from attribute name to
label value.  Python's `dict` lookups that may raise `KeyError` are modelled
with `Except`; the in-place `shuffle(patient_list)` is modelled by passing
the post-shuffle key order as an explicit argument, constrained in the
theorems to be a permutation of the dictionary's keys.  `log.info` calls are
pure observers and are omitted.
-/

namespace Slideflow

/-- Error kinds of the splitter (spec §7).  `missingAttribute` is the
`KeyError` raised by a failed dictionary lookup, carrying the missing key. -/
inductive SplitError where
  | invalidArgument : SplitError
  | missingAttribute : String → SplitError
  | solverUnavailable : SplitError
  | infeasibleSplit : SplitError
  deriving DecidableEq

/-- A patient record: attribute name → label value. -/
abbrev Record := List (String × String)

/-- `patients_dict`: patient identifier → record. -/
abbrev PatientsDict := List (String × Record)

/-- `list(patients_dict.keys())`. -/
def dictKeys (pd : PatientsDict) : List String := pd.map Prod.fst

/-- The value of `patients_dict[p][key]` when both lookups succeed. -/
def labelOf (pd : PatientsDict) (key p : String) : Option String :=
  (pd.lookup p).bind fun r => r.lookup key

/-- `patients_dict[p][key]` as a fallible lookup: a failed lookup raises a
`KeyError` (`missingAttribute`). -/
def patientLabel (pd : PatientsDict) (key p : String) : Except SplitError String :=
  match labelOf pd key p with
  | some v => Except.ok v
  | none => Except.error (SplitError.missingAttribute key)

/-- A Python list comprehension `[f x for x in xs]` over a fallible `f`:
evaluated left to right, stopping at the first raised error. -/
def mapExcept (f : α → Except ε β) : List α → Except ε (List β)
  | [] => Except.ok []
  | x :: xs =>
    match f x with
    | Except.error e => Except.error e
    | Except.ok y =>
      match mapExcept f xs with
      | Except.error e => Except.error e
      | Except.ok ys => Except.ok (y :: ys)

/-- Start offset of chunk `i` when a list of length `len` is cut into `n`
near-equal contiguous chunks. -/
def chunkStart (len n i : Nat) : Nat := i * (len / n) + min i (len % n)

/-- Length of chunk `i`: `len / n`, plus one for the first `len % n` chunks. -/
def chunkSize (len n i : Nat) : Nat :=
  len / n + if i < len % n then 1 else 0

/-- Modelled from the spec: `sf.util.split_list` is imported from
`slideflow.util`, whose source is not part of this tree.  The spec describes
it as dividing a list into `n` contiguous chunks of near-equal size (sizes
differing by at most one, remainder going to the earliest-index chunks):
chunk `i` is the slice `a[chunkStart i : chunkStart (i+1)]`. -/
def split_list (a : List α) (n : Nat) : List (List α) :=
  (List.range n).map fun i =>
    (a.take (chunkStart a.length n (i + 1))).drop (chunkStart a.length n i)

/-- `split_patients` (spec `split_plain`): shuffle the keys, then cut them
into `n` contiguous chunks.  `patient_list` is the post-shuffle key order. -/
def split_patients (patient_list : List String) (n : Nat) : List (List String) :=
  split_list patient_list n

/-! ### The balanced splitter -/

/-- `split_patients_balanced` (spec `split_balanced`): group the shuffled
patients by their label under `balance`, cut each label group into `n`
near-equal chunks, and join chunk `ni` of every label group into output
group `ni`.  Python's `list(set(...))` enumerates the distinct labels in an
unspecified order; it is modelled by `dedup` (first-occurrence order) — all
properties proved below are independent of that order.  The `log.info`
table is purely observational and omitted. -/
def split_patients_balanced (pd : PatientsDict) (patient_list : List String)
    (n : Nat) (balance : String) : Except SplitError (List (List String)) :=
  match mapExcept (patientLabel pd balance) patient_list with
  | Except.error e => Except.error e
  | Except.ok patient_outcome_labels =>
    let unique_labels := patient_outcome_labels.dedup
    let pt_by_outcome := unique_labels.map fun uo =>
      patient_list.filter fun p => labelOf pd balance p == some uo
    let pt_by_outcome_by_n := pt_by_outcome.map fun sub_l => split_list sub_l n
    Except.ok <| (List.range n).map fun ni =>
      (pt_by_outcome_by_n.map fun item => item.getD ni []).flatten

/-! ### The site-preserving splitter -/

/-- Modelled from the spec: the external solver abstraction
`slideflow.io.preservedsite.crossfolds.generate`, whose source is not part
of this tree.  It receives the rows `(patient, outcome_label, site)` of the
dataframe, the fold count `k = n`, and the solver `method`, and either fails
(`solverUnavailable` / `infeasibleSplit`) or returns the `CV` column: one
fold label per row, the decimal string of a fold index in `1..n`. -/
abbrev SolverFn :=
  List (String × String × String) → Nat → String → Except SplitError (List String)

/-- `split_patients_preserved_site` (spec `split_preserved_site`): look up
the outcome labels, perform the delayed import of the solver module
(`cvmod`, which fails with `solverUnavailable` when no backend is
installed), look up the sites, build the three-column dataframe, delegate
fold assignment to the solver, and return group `ni` as the patients whose
`CV` value equals `toString (ni + 1)`.  As in the other splitters,
`patient_list` is the post-shuffle key order and the diagnostic `log.info`
table is omitted. -/
def split_patients_preserved_site (cvmod : Except SplitError SolverFn)
    (pd : PatientsDict) (patient_list : List String) (n : Nat)
    (balance : String) (method : String) : Except SplitError (List (List String)) :=
  match mapExcept (patientLabel pd balance) patient_list with
  | Except.error e => Except.error e
  | Except.ok patient_outcome_labels =>
    match cvmod with
    | Except.error e => Except.error e
    | Except.ok cv =>
      match mapExcept (patientLabel pd "site") patient_list with
      | Except.error e => Except.error e
      | Except.ok site_list =>
        let df := patient_list.zip (patient_outcome_labels.zip site_list)
        match cv df n method with
        | Except.error e => Except.error e
        | Except.ok cvs =>
          Except.ok <| (List.range n).map fun ni =>
            ((patient_list.zip cvs).filter fun pc => pc.2 == toString (ni + 1)).map
              Prod.fst

/-- Classifier used to state `KeyError`-kind results. -/
def isKeyError : Except SplitError α → Bool
  | Except.error (SplitError.missingAttribute _) => true
  | _ => false

/-- Decoder for decimal digit strings, used to show that the fold labels
`str(1) .. str(n)` compared by the site-preserving splitter are pairwise
distinct (`toString` on `Nat` is injective). -/
def chlistToNat (l : List Char) : Nat :=
  l.foldl (fun a c => a * 10 + (c.toNat - 48)) 0

/-- The spec's concrete scenario: patients `A, B` with label `X` at site
`S1`, patients `C, D` with label `Y` at site `S2`. -/
def pdSites : PatientsDict :=
  [("A", [("o", "X"), ("site", "S1")]), ("B", [("o", "X"), ("site", "S1")]),
   ("C", [("o", "Y"), ("site", "S2")]), ("D", [("o", "Y"), ("site", "S2")])]

/-! ### State-threaded variants

To state the frame property (the splitters never mutate `patients_dict`),
the three functions are re-embedded with the dictionary threaded as explicit
state: every source statement that touches `patients_dict` receives the
current dictionary and returns the dictionary it leaves behind.  The frame
theorem then asserts that the returned dictionary is the input one, on the
success path and on every failure path alike. -/

/-- State-threaded map (`[f x for x in xs]` where each `f` reads the dict). -/
def mapSt (f : PatientsDict → α → β × PatientsDict) :
    PatientsDict → List α → List β × PatientsDict
  | st, [] => ([], st)
  | st, x :: xs =>
    match f st x with
    | (y, st1) =>
      match mapSt f st1 xs with
      | (ys, st2) => (y :: ys, st2)

/-- State-threaded filter (`[p for p in l if test p]` where `test` reads the
dict). -/
def filterSt (f : PatientsDict → α → Bool × PatientsDict) :
    PatientsDict → List α → List α × PatientsDict
  | st, [] => ([], st)
  | st, x :: xs =>
    match f st x with
    | (b, st1) =>
      match filterSt f st1 xs with
      | (ys, st2) => (if b then x :: ys else ys, st2)

/-- State-threaded fallible map, stopping at the first raised error. -/
def mapExceptSt (f : PatientsDict → α → Except SplitError β × PatientsDict) :
    PatientsDict → List α → Except SplitError (List β) × PatientsDict
  | st, [] => (Except.ok [], st)
  | st, x :: xs =>
    match f st x with
    | (Except.error e, st1) => (Except.error e, st1)
    | (Except.ok y, st1) =>
      match mapExceptSt f st1 xs with
      | (Except.error e, st2) => (Except.error e, st2)
      | (Except.ok ys, st2) => (Except.ok (y :: ys), st2)

/-- `split_patients` with the dictionary threaded: its only dictionary
access is `list(patients_dict.keys())`, a read. -/
def split_patients_track (pd : PatientsDict) (patient_list : List String)
    (n : Nat) : List (List String) × PatientsDict :=
  (split_list patient_list n, pd)

/-- `split_patients_balanced` with the dictionary threaded through every
`patients_dict[p][balance]` read. -/
def split_patients_balanced_track (pd : PatientsDict) (patient_list : List String)
    (n : Nat) (balance : String) :
    Except SplitError (List (List String)) × PatientsDict :=
  match mapExceptSt (fun st p => (patientLabel st balance p, st)) pd patient_list with
  | (Except.error e, st1) => (Except.error e, st1)
  | (Except.ok patient_outcome_labels, st1) =>
    let unique_labels := patient_outcome_labels.dedup
    match mapSt (fun st uo =>
        filterSt (fun st2 p => (labelOf st2 balance p == some uo, st2)) st patient_list)
      st1 unique_labels with
    | (pt_by_outcome, st2) =>
      let pt_by_outcome_by_n := pt_by_outcome.map fun sub_l => split_list sub_l n
      (Except.ok ((List.range n).map fun ni =>
        (pt_by_outcome_by_n.map fun item => item.getD ni []).flatten), st2)

/-- `split_patients_preserved_site` with the dictionary threaded through
every `patients_dict[p][...]` read; the solver receives only the dataframe
copy, never the dictionary. -/
def split_patients_preserved_site_track (cvmod : Except SplitError SolverFn)
    (pd : PatientsDict) (patient_list : List String) (n : Nat)
    (balance : String) (method : String) :
    Except SplitError (List (List String)) × PatientsDict :=
  match mapExceptSt (fun st p => (patientLabel st balance p, st)) pd patient_list with
  | (Except.error e, st1) => (Except.error e, st1)
  | (Except.ok patient_outcome_labels, st1) =>
    match cvmod with
    | Except.error e => (Except.error e, st1)
    | Except.ok cv =>
      match mapExceptSt (fun st p => (patientLabel st "site" p, st)) st1 patient_list with
      | (Except.error e, st2) => (Except.error e, st2)
      | (Except.ok site_list, st2) =>
        let df := patient_list.zip (patient_outcome_labels.zip site_list)
        match cv df n method with
        | Except.error e => (Except.error e, st2)
        | Except.ok cvs =>
          (Except.ok ((List.range n).map fun ni =>
            ((patient_list.zip cvs).filter fun pc => pc.2 == toString (ni + 1)).map
              Prod.fst), st2)

/-! ### Chunk arithmetic -/

theorem chunkStart_zero (len n : Nat) : chunkStart len n 0 = 0 := by
  simp [chunkStart]

theorem chunkStart_succ (len n i : Nat) :
    chunkStart len n (i + 1) = chunkStart len n i + chunkSize len n i := by
  unfold chunkStart chunkSize
  rcases Nat.lt_or_ge i (len % n) with h | h
  · rw [Nat.min_eq_left h.le, Nat.min_eq_left (by omega : i + 1 ≤ len % n), if_pos h]
    ring
  · rw [Nat.min_eq_right h, Nat.min_eq_right (by omega : len % n ≤ i + 1),
      if_neg (Nat.not_lt.mpr h)]
    ring

theorem chunkStart_top (len n : Nat) (hn : 1 ≤ n) : chunkStart len n n = len := by
  unfold chunkStart
  rw [Nat.min_eq_right (Nat.le_of_lt (Nat.mod_lt _ hn))]
  exact Nat.div_add_mod len n

theorem chunkStart_mono (len n : Nat) {i j : Nat} (h : i ≤ j) :
    chunkStart len n i ≤ chunkStart len n j := by
  unfold chunkStart
  exact Nat.add_le_add (Nat.mul_le_mul_right _ h) (by omega)

theorem chunkStart_add_size_le (len n i : Nat) (hn : 1 ≤ n) (hi : i < n) :
    chunkStart len n i + chunkSize len n i ≤ len := by
  rw [← chunkStart_succ]
  calc chunkStart len n (i + 1) ≤ chunkStart len n n := chunkStart_mono len n hi
    _ = len := chunkStart_top len n hn

/-! ### Basic facts about `split_list` -/

theorem length_split_list (a : List α) (n : Nat) : (split_list a n).length = n := by
  simp [split_list]

theorem getD_split_list (a : List α) {n i : Nat} (hi : i < n) :
    (split_list a n).getD i [] =
      (a.take (chunkStart a.length n (i + 1))).drop (chunkStart a.length n i) := by
  unfold split_list
  rw [List.getD_eq_getElem?_getD, List.getElem?_map, List.getElem?_range hi]
  rfl

theorem length_chunk (a : List α) {n i : Nat} (hn : 1 ≤ n) (hi : i < n) :
    ((split_list a n).getD i []).length = chunkSize a.length n i := by
  rw [getD_split_list a hi, List.length_drop, List.length_take, chunkStart_succ]
  have h1 := chunkStart_add_size_le a.length n i hn hi
  omega

theorem flatten_slices (a : List α) (s : Nat → Nat) (h0 : s 0 = 0)
    (hmono : ∀ i, s i ≤ s (i + 1)) (n : Nat) :
    ((List.range n).map fun i => (a.take (s (i + 1))).drop (s i)).flatten = a.take (s n) := by
  induction n with
  | zero => simp [h0]
  | succ n ih =>
    rw [List.range_succ, List.map_append, List.flatten_append]
    simp only [List.map_cons, List.map_nil, List.flatten_cons, List.flatten_nil, List.append_nil]
    rw [ih]
    have h1 : (a.take (s (n + 1))).take (s n) = a.take (s n) := by
      rw [List.take_take, Nat.min_eq_left (hmono n)]
    calc a.take (s n) ++ (a.take (s (n + 1))).drop (s n)
        = (a.take (s (n + 1))).take (s n) ++ (a.take (s (n + 1))).drop (s n) := by rw [h1]
      _ = a.take (s (n + 1)) := List.take_append_drop _ _

theorem flatten_split_list (a : List α) {n : Nat} (hn : 1 ≤ n) : (split_list a n).flatten = a := by
  unfold split_list
  rw [flatten_slices a (chunkStart a.length n) (chunkStart_zero a.length n)
    (fun i => chunkStart_mono a.length n (Nat.le_succ i)) n]
  rw [chunkStart_top a.length n hn, List.take_length]

theorem mem_of_mem_chunk {a : List α} {n i : Nat} {x : α}
    (hx : x ∈ (split_list a n).getD i []) : x ∈ a := by
  rcases Nat.lt_or_ge i n with hi | hi
  · rw [getD_split_list a hi] at hx
    exact List.mem_of_mem_take (List.mem_of_mem_drop hx)
  · rw [List.getD_eq_default] at hx
    · cases hx
    · rw [length_split_list]; exact hi

/-! ### Summation helpers -/

theorem sum_map_eq_zero {l : List β} {f : β → Nat} (h : ∀ x ∈ l, f x = 0) :
    (l.map f).sum = 0 := by
  induction l with
  | nil => rfl
  | cons x xs ih =>
    simp only [List.map_cons, List.sum_cons, h x (List.mem_cons_self x xs), Nat.zero_add]
    exact ih fun y hy => h y (List.mem_cons_of_mem x hy)

theorem sum_map_swap (l1 : List β) (l2 : List γ) (f : β → γ → Nat) :
    (l1.map fun x => (l2.map fun y => f x y).sum).sum
      = (l2.map fun y => (l1.map fun x => f x y).sum).sum := by
  induction l1 with
  | nil =>
    simp only [List.map_nil, List.sum_nil]
    exact (sum_map_eq_zero fun y _ => rfl).symm
  | cons x xs ih =>
    simp only [List.map_cons, List.sum_cons]
    rw [List.sum_map_add, ih]

theorem getD_range_map (d : α) (L : List α) :
    (List.range L.length).map (fun i => L.getD i d) = L := by
  induction L with
  | nil => rfl
  | cons x xs ih =>
    rw [List.length_cons, List.range_succ_eq_map, List.map_cons, List.map_map]
    have h2 : ((fun i => (x :: xs).getD i d) ∘ Nat.succ) = fun i => xs.getD i d := by
      funext i
      simp [List.getD_cons_succ]
    rw [h2, ih]
    simp

theorem count_filter_eq [BEq α] [LawfulBEq α] (x : α) (p : α → Bool) (l : List α) :
    (l.filter p).count x = if p x then l.count x else 0 := by
  by_cases h : p x
  · rw [if_pos h, List.count_filter h]
  · rw [if_neg h, List.count_eq_zero]
    intro hx
    exact h (List.of_mem_filter hx)

theorem sum_map_ite_unique {l : List β} {q : β → Bool} {c : Nat} {u : β}
    (hnd : l.Nodup) (hu : u ∈ l) (hq : q u = true)
    (huniq : ∀ v ∈ l, q v = true → v = u) :
    (l.map fun v => if q v then c else 0).sum = c := by
  induction l with
  | nil => cases hu
  | cons v vs ih =>
    simp only [List.map_cons, List.sum_cons]
    rcases List.mem_cons.mp hu with rfl | hu'
    · rw [if_pos hq]
      have hz : (vs.map fun w => if q w then c else 0).sum = 0 := by
        apply sum_map_eq_zero
        intro w hw
        have hqw : ¬ q w = true := fun hqw =>
          (List.nodup_cons.mp hnd).1
            ((huniq w (List.mem_cons_of_mem _ hw) hqw) ▸ hw)
        rw [if_neg hqw]
      omega
    · have hqv : ¬ q v = true := fun hqv =>
        (List.nodup_cons.mp hnd).1
          ((huniq v (List.mem_cons_self _ _) hqv) ▸ hu')
      rw [if_neg hqv, Nat.zero_add]
      exact ih (List.nodup_cons.mp hnd).2 hu'
        fun w hw hqw => huniq w (List.mem_cons_of_mem _ hw) hqw

/-! ### `mapExcept` facts -/

theorem mapExcept_ok_forall₂ {f : α → Except ε β} :
    ∀ {l : List α} {ys : List β}, mapExcept f l = Except.ok ys →
      List.Forall₂ (fun x y => f x = Except.ok y) l ys := by
  intro l
  induction l with
  | nil => intro ys h; cases h; exact List.Forall₂.nil
  | cons a as ih =>
    intro ys h
    unfold mapExcept at h
    cases hfa : f a with
    | error e => rw [hfa] at h; cases h
    | ok y =>
      rw [hfa] at h
      cases hrest : mapExcept f as with
      | error e => rw [hrest] at h; cases h
      | ok ys' =>
        rw [hrest] at h
        cases h
        exact List.Forall₂.cons hfa (ih hrest)

theorem mapExcept_ok_mem {f : α → Except ε β} {l : List α} {ys : List β}
    (h : mapExcept f l = Except.ok ys) :
    ∀ x ∈ l, ∃ y ∈ ys, f x = Except.ok y := by
  have hf := mapExcept_ok_forall₂ h
  clear h
  induction hf with
  | nil => intro x hx; cases hx
  | cons hfa _ ih =>
    intro x hx
    rcases List.mem_cons.mp hx with rfl | hx'
    · exact ⟨_, List.mem_cons_self _ _, hfa⟩
    · obtain ⟨y', hy', hfy'⟩ := ih x hx'
      exact ⟨y', List.mem_cons_of_mem _ hy', hfy'⟩

theorem mapExcept_error_of_mem {f : α → Except ε β} {l : List α} {e : ε}
    (hex : ∃ x ∈ l, f x = Except.error e)
    (hall : ∀ x ∈ l, ∀ e', f x = Except.error e' → e' = e) :
    mapExcept f l = Except.error e := by
  induction l with
  | nil => rcases hex with ⟨x, hx, _⟩; cases hx
  | cons a as ih =>
    unfold mapExcept
    cases hfa : f a with
    | error e' =>
      rw [hall a (List.mem_cons_self _ _) e' hfa]
    | ok y =>
      have hex' : ∃ x ∈ as, f x = Except.error e := by
        rcases hex with ⟨x, hx, hfx⟩
        rcases List.mem_cons.mp hx with rfl | hx'
        · rw [hfa] at hfx; cases hfx
        · exact ⟨x, hx', hfx⟩
      rw [ih hex' fun x hx => hall x (List.mem_cons_of_mem _ hx)]

/-! ### Regrouping the balanced split -/

theorem getD_range_map' (d : α) {L : List α} {n : Nat} (h : L.length = n) :
    (List.range n).map (fun i => L.getD i d) = L := by
  subst h
  exact getD_range_map d L

theorem sum_counts_chunks [BEq α] [LawfulBEq α] {n : Nat} (hn : 1 ≤ n) (x : α)
    (sub_l : List α) :
    ((List.range n).map fun ni => ((split_list sub_l n).getD ni []).count x).sum
      = sub_l.count x := by
  have hrange : (List.range n).map (fun ni => (split_list sub_l n).getD ni [])
      = split_list sub_l n := getD_range_map' [] (length_split_list sub_l n)
  calc ((List.range n).map fun ni => ((split_list sub_l n).getD ni []).count x).sum
      = (((List.range n).map fun ni => (split_list sub_l n).getD ni []).map
          (List.count x)).sum := by rw [List.map_map]; rfl
    _ = ((split_list sub_l n).map (List.count x)).sum := by rw [hrange]
    _ = (split_list sub_l n).flatten.count x := (List.count_flatten x _).symm
    _ = sub_l.count x := by rw [flatten_split_list sub_l hn]

theorem count_regroup [BEq α] [LawfulBEq α] (subs : List (List α)) {n : Nat}
    (hn : 1 ≤ n) (x : α) :
    ((List.range n).map fun ni =>
        ((subs.map fun sub_l => split_list sub_l n).map fun item =>
          item.getD ni []).flatten).flatten.count x
      = subs.flatten.count x := by
  rw [List.count_flatten, List.map_map]
  have hstep : ∀ ni ∈ List.range n,
      (List.count x ∘ fun ni =>
        ((subs.map fun sub_l => split_list sub_l n).map fun item =>
          item.getD ni []).flatten) ni
      = (subs.map fun sub_l => ((split_list sub_l n).getD ni []).count x).sum := by
    intro ni _
    simp only [Function.comp_apply]
    rw [List.count_flatten, List.map_map, List.map_map]
    rfl
  rw [List.map_congr_left hstep, sum_map_swap]
  rw [List.count_flatten]
  congr 1
  apply List.map_congr_left
  intro sub_l _
  exact sum_counts_chunks hn x sub_l

theorem count_flatten_filters {pd : PatientsDict} {patient_list : List String}
    {balance : String} {labels : List String}
    (hml : mapExcept (patientLabel pd balance) patient_list = Except.ok labels)
    (x : String) :
    (labels.dedup.map fun uo =>
      patient_list.filter fun p => labelOf pd balance p == some uo).flatten.count x
      = patient_list.count x := by
  rw [List.count_flatten, List.map_map]
  have hterm : ∀ uo ∈ labels.dedup,
      (List.count x ∘ fun uo =>
        patient_list.filter fun p => labelOf pd balance p == some uo) uo
      = if labelOf pd balance x == some uo then patient_list.count x else 0 := by
    intro uo _
    simp only [Function.comp_apply]
    exact count_filter_eq x _ patient_list
  rw [List.map_congr_left hterm]
  by_cases hx : x ∈ patient_list
  · obtain ⟨v, hv, hfv⟩ := mapExcept_ok_mem hml x hx
    have hlab : labelOf pd balance x = some v := by
      unfold patientLabel at hfv
      cases hl : labelOf pd balance x <;> rw [hl] at hfv
      · cases hfv
      · cases hfv; rfl
    apply sum_map_ite_unique (u := v) labels.nodup_dedup (List.mem_dedup.mpr hv)
    · simp [hlab]
    · intro uo _ huo
      have : labelOf pd balance x = some uo := eq_of_beq huo
      rw [hlab] at this
      cases this
      rfl
  · have hc : patient_list.count x = 0 := List.count_eq_zero.mpr hx
    rw [hc]
    apply sum_map_eq_zero
    intro uo _
    split <;> rfl

theorem balanced_flatten_perm {pd : PatientsDict} {patient_list : List String}
    {n : Nat} {balance : String} {gs : List (List String)}
    (hn : 1 ≤ n)
    (h : split_patients_balanced pd patient_list n balance = Except.ok gs) :
    gs.flatten.Perm patient_list := by
  unfold split_patients_balanced at h
  cases hml : mapExcept (patientLabel pd balance) patient_list with
  | error e => rw [hml] at h; cases h
  | ok labels =>
    rw [hml] at h
    cases h
    rw [List.perm_iff_count]
    intro x
    rw [count_regroup _ hn x, count_flatten_filters hml x]

/-! ### Claim theorems -/

/-- C1: For every patient mapping and every `n` in `[1, len(patients)]`, the
groups returned by `split_plain` (`split_patients`) and — whenever it
returns — by `split_balanced` (`split_patients_balanced`) form a partition
of the input patient set: their concatenation is a permutation of the
patient identifiers (so no identifier is omitted and, the keys being
distinct, none appears in more than one group), and the group lengths sum
to the number of patients. -/
theorem C1_split_groups_partition (pd : PatientsDict) (patient_list : List String)
    (n : Nat) (balance : String) (gs : List (List String))
    (hperm : patient_list.Perm (dictKeys pd))
    (hn1 : 1 ≤ n) (hn2 : n ≤ patient_list.length)
    (h : gs = split_patients patient_list n ∨
         split_patients_balanced pd patient_list n balance = Except.ok gs) :
    gs.flatten.Perm (dictKeys pd) ∧
    ((dictKeys pd).Nodup → gs.flatten.Nodup) ∧
    (gs.map List.length).sum = pd.length := by
  have hp : gs.flatten.Perm patient_list := by
    rcases h with rfl | h
    · unfold split_patients
      rw [flatten_split_list _ hn1]
    · exact balanced_flatten_perm hn1 h
  have hpk : gs.flatten.Perm (dictKeys pd) := hp.trans hperm
  refine ⟨hpk, fun hnd => hpk.nodup_iff.mpr hnd, ?_⟩
  have hlen := hpk.length_eq
  rw [List.length_flatten] at hlen
  simpa [dictKeys] using hlen

theorem C1_split_groups_partition_witness :
    ((["B", "C", "A"] : List String).Perm
      (dictKeys [("A", [("o", "X")]), ("B", [("o", "X")]), ("C", [("o", "Y")])]) ∧
     1 ≤ 2 ∧ 2 ≤ (["B", "C", "A"] : List String).length) ∧
    ((split_patients ["B", "C", "A"] 2).flatten.Perm
      (dictKeys [("A", [("o", "X")]), ("B", [("o", "X")]), ("C", [("o", "Y")])]) ∧
     ((dictKeys [("A", [("o", "X")]), ("B", [("o", "X")]), ("C", [("o", "Y")])]).Nodup →
      (split_patients ["B", "C", "A"] 2).flatten.Nodup) ∧
     ((split_patients ["B", "C", "A"] 2).map List.length).sum =
      ([("A", [("o", "X")]), ("B", [("o", "X")]), ("C", [("o", "Y")])] : PatientsDict).length) :=
  ⟨⟨by decide, by decide, by decide⟩,
   C1_split_groups_partition
     [("A", [("o", "X")]), ("B", [("o", "X")]), ("C", [("o", "Y")])]
     ["B", "C", "A"] 2 "o" (split_patients ["B", "C", "A"] 2)
     (by decide) (by decide) (by decide) (Or.inl rfl)⟩

/-- C6: For every patient mapping and every `n` in `[1, len(patients)]`,
`split_plain` (`split_patients`) returns the shuffled patient list divided
into `n` contiguous chunks (their concatenation, in order, is the shuffled
list) whose sizes differ pairwise by at most 1; `n = 1` yields a single
group containing all patients, and `n = len(patients)` yields groups of
size 1 each. -/
theorem C6_split_plain_chunks (patient_list : List String) (n : Nat)
    (hn1 : 1 ≤ n) (hn2 : n ≤ patient_list.length) :
    (split_patients patient_list n).length = n ∧
    (split_patients patient_list n).flatten = patient_list ∧
    (∀ i j, i < n → j < n →
      ((split_patients patient_list n).getD i []).length ≤
        ((split_patients patient_list n).getD j []).length + 1) ∧
    (n = 1 → split_patients patient_list n = [patient_list]) ∧
    (n = patient_list.length →
      ∀ g ∈ split_patients patient_list n, g.length = 1) := by
  unfold split_patients
  refine ⟨length_split_list _ _, flatten_split_list _ hn1, ?_, ?_, ?_⟩
  · intro i j hi hj
    rw [length_chunk _ hn1 hi, length_chunk _ hn1 hj]
    unfold chunkSize
    split_ifs <;> omega
  · intro hn
    subst hn
    unfold split_list chunkStart
    have h0 : List.range 1 = [0] := rfl
    simp [Nat.div_one, Nat.mod_one, h0]
  · intro hlen g hg
    unfold split_list at hg
    obtain ⟨i, hi, rfl⟩ := List.mem_map.mp hg
    rw [List.mem_range] at hi
    have h1 : ((split_list patient_list n).getD i []).length = chunkSize patient_list.length n i :=
      length_chunk _ hn1 hi
    rw [getD_split_list _ hi] at h1
    rw [h1, ← hlen]
    unfold chunkSize
    rw [Nat.div_self (by omega), Nat.mod_self, if_neg (by omega)]

theorem C6_split_plain_chunks_witness :
    (1 ≤ 3 ∧ 3 ≤ (["C", "A", "B"] : List String).length) ∧
    ((split_patients ["C", "A", "B"] 3).length = 3 ∧
     (split_patients ["C", "A", "B"] 3).flatten = ["C", "A", "B"] ∧
     (∀ i j, i < 3 → j < 3 →
       ((split_patients ["C", "A", "B"] 3).getD i []).length ≤
         ((split_patients ["C", "A", "B"] 3).getD j []).length + 1) ∧
     (3 = 1 → split_patients ["C", "A", "B"] 3 = [["C", "A", "B"]]) ∧
     (3 = (["C", "A", "B"] : List String).length →
       ∀ g ∈ split_patients ["C", "A", "B"] 3, g.length = 1)) :=
  ⟨⟨by decide, by decide⟩,
   C6_split_plain_chunks ["C", "A", "B"] 3 (by decide) (by decide)⟩

/-- C5 counterexample: the claim says `split_plain` fails with
`InvalidArgument` whenever `n = 0` or `n > len(patients)`; in fact the
splitter performs no validation: at `n = 2 > 1 = len(patients)` it returns
two groups (the second empty), and at `n = 0` it returns an empty list of
groups, never an error. -/
theorem C5_counterexample :
    split_patients ["A"] 2 = [["A"], []] ∧ split_patients ["A"] 0 = [] := by
  constructor <;> rfl

/-- C5 amended: `split_plain` (`split_patients`) performs no validation of
`n`: for `n = 0` it returns no groups at all, and for `n > len(patients)`
it still returns `n` groups whose concatenation is the patient list, the
excess groups being empty. -/
theorem C5_amended_no_validation (patient_list : List String) (n : Nat)
    (h : patient_list.length < n) :
    split_patients patient_list 0 = [] ∧
    (split_patients patient_list n).length = n ∧
    (split_patients patient_list n).flatten = patient_list ∧
    [] ∈ split_patients patient_list n := by
  unfold split_patients
  refine ⟨rfl, length_split_list _ _, flatten_split_list _ (by omega), ?_⟩
  have hi : n - 1 < n := by omega
  have hsz : ((split_list patient_list n).getD (n - 1) []).length = 0 := by
    rw [length_chunk _ (by omega) hi]
    unfold chunkSize
    rw [Nat.div_eq_of_lt h, Nat.mod_eq_of_lt h, if_neg (by omega)]
  have hnil : (split_list patient_list n).getD (n - 1) [] = [] :=
    List.eq_nil_of_length_eq_zero hsz
  have hmem : (split_list patient_list n).getD (n - 1) [] ∈ split_list patient_list n := by
    rw [List.getD_eq_getElem?_getD,
      List.getElem?_eq_getElem (by rw [length_split_list]; exact hi)]
    exact List.getElem_mem _
  rw [hnil] at hmem
  exact hmem

theorem C5_amended_no_validation_witness :
    (["A"] : List String).length < 2 ∧
    (split_patients ["A"] 0 = [] ∧
     (split_patients ["A"] 2).length = 2 ∧
     (split_patients ["A"] 2).flatten = ["A"] ∧
     [] ∈ split_patients ["A"] 2) :=
  ⟨by decide, C5_amended_no_validation ["A"] 2 (by decide)⟩

/-! ### Per-label balance -/

theorem getD_map_range (F : Nat → α) (d : α) {n i : Nat} (hi : i < n) :
    ((List.range n).map F).getD i d = F i := by
  rw [List.getD_eq_getElem?_getD, List.getElem?_map, List.getElem?_range hi]
  rfl

theorem chunkSize_anti (len n : Nat) {i j : Nat} (hij : i ≤ j) :
    chunkSize len n j ≤ chunkSize len n i ∧
    chunkSize len n i ≤ chunkSize len n j + 1 := by
  unfold chunkSize
  split_ifs <;> omega

theorem countP_chunk (pd : PatientsDict) (balance : String)
    (patient_list : List String) (n i : Nat) (uo uo' : String) :
    ((split_list (patient_list.filter fun p => labelOf pd balance p == some uo') n).getD
        i []).countP (fun p => labelOf pd balance p == some uo)
      = if uo' = uo
          then ((split_list (patient_list.filter fun p =>
            labelOf pd balance p == some uo') n).getD i []).length
          else 0 := by
  have hmem : ∀ p ∈ (split_list (patient_list.filter fun p =>
      labelOf pd balance p == some uo') n).getD i [],
      labelOf pd balance p = some uo' := by
    intro p hp
    have h1 := mem_of_mem_chunk hp
    have h2 := (List.mem_filter.mp h1).2
    exact eq_of_beq h2
  by_cases he : uo' = uo
  · subst he
    rw [if_pos rfl]
    apply List.countP_eq_length.mpr
    intro p hp
    rw [hmem p hp]
    exact beq_self_eq_true _
  · rw [if_neg he]
    apply List.countP_eq_zero.mpr
    intro p hp hb
    rw [hmem p hp] at hb
    exact he (Option.some.inj (eq_of_beq hb))

theorem sum_map_ite_eq_mem [DecidableEq β] {l : List β} (hnd : l.Nodup) (u : β)
    (f : β → Nat) :
    (l.map fun v => if v = u then f v else 0).sum = if u ∈ l then f u else 0 := by
  induction l with
  | nil => simp
  | cons v vs ih =>
    simp only [List.map_cons, List.sum_cons]
    by_cases hv : v = u
    · subst hv
      rw [if_pos rfl, if_pos (List.mem_cons_self _ _)]
      have hnotin : v ∉ vs := (List.nodup_cons.mp hnd).1
      have hz : (vs.map fun w => if w = v then f w else 0).sum = 0 := by
        apply sum_map_eq_zero
        intro w hw
        have hne : ¬ w = v := by
          intro he
          subst he
          exact hnotin hw
        rw [if_neg hne]
      omega
    · rw [if_neg hv, Nat.zero_add, ih (List.nodup_cons.mp hnd).2]
      by_cases hu : u ∈ vs
      · rw [if_pos hu, if_pos (List.mem_cons_of_mem _ hu)]
      · rw [if_neg hu, if_neg (fun hm => by
          rcases List.mem_cons.mp hm with he | hm'
          · exact hv he.symm
          · exact hu hm')]

theorem balanced_group_countP {pd : PatientsDict} {patient_list : List String}
    {n : Nat} {balance : String} (labels : List String)
    (hn : 1 ≤ n) {i : Nat} (hi : i < n) (uo : String) :
    ((((labels.dedup.map fun uo' =>
          patient_list.filter fun p => labelOf pd balance p == some uo').map
        fun sub_l => split_list sub_l n).map fun item => item.getD i []).flatten).countP
      (fun p => labelOf pd balance p == some uo)
    = if uo ∈ labels.dedup
        then chunkSize (patient_list.filter fun p =>
          labelOf pd balance p == some uo).length n i
        else 0 := by
  rw [List.countP_flatten, List.map_map, List.map_map, List.map_map]
  have hpt : ∀ uo' ∈ labels.dedup,
      ((((List.countP fun p => labelOf pd balance p == some uo) ∘
          fun item => item.getD i []) ∘ fun sub_l => split_list sub_l n) ∘
        fun uo' => patient_list.filter fun p => labelOf pd balance p == some uo') uo'
      = if uo' = uo
          then ((split_list (patient_list.filter fun p =>
            labelOf pd balance p == some uo') n).getD i []).length
          else 0 := by
    intro uo' _
    simp only [Function.comp_apply]
    exact countP_chunk pd balance patient_list n i uo uo'
  rw [List.map_congr_left hpt, sum_map_ite_eq_mem labels.nodup_dedup]
  by_cases hm : uo ∈ labels.dedup
  · rw [if_pos hm, if_pos hm, length_chunk _ hn hi]
  · rw [if_neg hm, if_neg hm]

/-- C2: For every patient mapping in which every record has the balance key
(so that `split_balanced` returns a result `gs`) and every `n` in
`[1, len(patients)]`, every distinct label value has per-group counts whose
maximum and minimum differ by at most 1, the remainder going to the
earliest-index groups (counts are non-increasing in the group index);
total group sizes are not required to be equal across groups. -/
theorem C2_balanced_per_label (pd : PatientsDict) (patient_list : List String)
    (n : Nat) (balance : String) (gs : List (List String))
    (hn1 : 1 ≤ n) (hn2 : n ≤ patient_list.length)
    (h : split_patients_balanced pd patient_list n balance = Except.ok gs) :
    ∀ (uo : String) (i j : Nat), i ≤ j → j < n →
      ((gs.getD j []).countP fun p => labelOf pd balance p == some uo) ≤
        ((gs.getD i []).countP fun p => labelOf pd balance p == some uo) ∧
      ((gs.getD i []).countP fun p => labelOf pd balance p == some uo) ≤
        ((gs.getD j []).countP fun p => labelOf pd balance p == some uo) + 1 := by
  unfold split_patients_balanced at h
  cases hml : mapExcept (patientLabel pd balance) patient_list with
  | error e => rw [hml] at h; cases h
  | ok labels =>
    rw [hml] at h
    cases h
    intro uo i j hij hj
    have hi : i < n := Nat.lt_of_le_of_lt hij hj
    rw [getD_map_range _ _ hi, getD_map_range _ _ hj]
    rw [balanced_group_countP labels hn1 hi uo, balanced_group_countP labels hn1 hj uo]
    by_cases hm : uo ∈ labels.dedup
    · rw [if_pos hm, if_pos hm]
      exact chunkSize_anti _ n hij
    · rw [if_neg hm, if_neg hm]
      omega

theorem C2_balanced_per_label_witness :
    (1 ≤ 2 ∧ 2 ≤ (["A", "B", "C", "D"] : List String).length ∧
     split_patients_balanced
       [("A", [("o", "X")]), ("B", [("o", "X")]), ("C", [("o", "Y")]), ("D", [("o", "Y")])]
       ["A", "B", "C", "D"] 2 "o" = Except.ok [["A", "C"], ["B", "D"]]) ∧
    (∀ (uo : String) (i j : Nat), i ≤ j → j < 2 →
      (([["A", "C"], ["B", "D"]].getD j []).countP fun p =>
        labelOf [("A", [("o", "X")]), ("B", [("o", "X")]), ("C", [("o", "Y")]), ("D", [("o", "Y")])]
          "o" p == some uo) ≤
        (([["A", "C"], ["B", "D"]].getD i []).countP fun p =>
          labelOf [("A", [("o", "X")]), ("B", [("o", "X")]), ("C", [("o", "Y")]), ("D", [("o", "Y")])]
            "o" p == some uo) ∧
      (([["A", "C"], ["B", "D"]].getD i []).countP fun p =>
        labelOf [("A", [("o", "X")]), ("B", [("o", "X")]), ("C", [("o", "Y")]), ("D", [("o", "Y")])]
          "o" p == some uo) ≤
        (([["A", "C"], ["B", "D"]].getD j []).countP fun p =>
          labelOf [("A", [("o", "X")]), ("B", [("o", "X")]), ("C", [("o", "Y")]), ("D", [("o", "Y")])]
            "o" p == some uo) + 1) :=
  ⟨⟨by decide, by decide, by rfl⟩,
   C2_balanced_per_label
     [("A", [("o", "X")]), ("B", [("o", "X")]), ("C", [("o", "Y")]), ("D", [("o", "Y")])]
     ["A", "B", "C", "D"] 2 "o" [["A", "C"], ["B", "D"]]
     (by decide) (by decide) (by rfl)⟩

/-! ### Error behaviour of the balanced splitter -/

theorem lookup_eq_of_nodup [BEq α] [LawfulBEq α] {l : List (α × β)}
    (hnd : (l.map Prod.fst).Nodup) {k : α} {r : β} (hm : (k, r) ∈ l) :
    l.lookup k = some r := by
  induction l with
  | nil => cases hm
  | cons pr prs ih =>
    rw [List.map_cons, List.nodup_cons] at hnd
    rcases List.mem_cons.mp hm with he | hm'
    · rw [← he, List.lookup_cons_self]
    · have hk : k ≠ pr.1 := by
        intro hkk
        exact hnd.1 (hkk ▸ List.mem_map.mpr ⟨(k, r), hm', rfl⟩)
      cases pr with
      | mk k1 r1 =>
        have hbeq : (k == k1) = false := beq_eq_false_iff_ne.mpr (by simpa using hk)
        rw [List.lookup_cons, hbeq]
        exact ih hnd.2 hm'

theorem patientLabel_error_kind (pd : PatientsDict) (key p : String) {e : SplitError}
    (he : patientLabel pd key p = Except.error e) :
    e = SplitError.missingAttribute key := by
  unfold patientLabel at he
  cases hl : labelOf pd key p <;> rw [hl] at he
  · cases he; rfl
  · cases he

/-- C7: For every patient mapping (with distinct keys) in which at least one
patient record lacks the balance key, `split_balanced`
(`split_patients_balanced`) raises the `KeyError`-kind error
`missingAttribute balance` instead of returning a result. -/
theorem C7_balanced_missing_key (pd : PatientsDict) (patient_list : List String)
    (n : Nat) (balance : String)
    (hnd : (dictKeys pd).Nodup)
    (hperm : patient_list.Perm (dictKeys pd))
    (hmiss : ∃ pr ∈ pd, pr.2.lookup balance = none) :
    split_patients_balanced pd patient_list n balance =
      Except.error (SplitError.missingAttribute balance) := by
  obtain ⟨⟨p0, r0⟩, hpr, hr0⟩ := hmiss
  have hp0 : p0 ∈ patient_list := by
    rw [hperm.mem_iff]
    exact List.mem_map.mpr ⟨(p0, r0), hpr, rfl⟩
  have herr : patientLabel pd balance p0 =
      Except.error (SplitError.missingAttribute balance) := by
    have hnone : labelOf pd balance p0 = none := by
      unfold labelOf
      rw [lookup_eq_of_nodup hnd hpr]
      simpa using hr0
    unfold patientLabel
    rw [hnone]
  have hmap := mapExcept_error_of_mem ⟨p0, hp0, herr⟩
    fun p _ e' he' => patientLabel_error_kind pd balance p he'
  unfold split_patients_balanced
  rw [hmap]

theorem C7_balanced_missing_key_witness :
    ((dictKeys [("A", [("o", "X")]), ("B", ([] : Record))]).Nodup ∧
     (["B", "A"] : List String).Perm (dictKeys [("A", [("o", "X")]), ("B", ([] : Record))]) ∧
     (∃ pr ∈ ([("A", [("o", "X")]), ("B", ([] : Record))] : PatientsDict),
       pr.2.lookup "o" = none)) ∧
    split_patients_balanced [("A", [("o", "X")]), ("B", ([] : Record))] ["B", "A"] 1 "o" =
      Except.error (SplitError.missingAttribute "o") :=
  ⟨⟨by decide, by decide, by decide⟩,
   C7_balanced_missing_key [("A", [("o", "X")]), ("B", ([] : Record))] ["B", "A"] 1 "o"
     (by decide) (by decide) (by decide)⟩

/-! ### Error behaviour of the site-preserving splitter -/

/-- C4: If the solver abstraction used by `split_preserved_site`
(`split_patients_preserved_site`) is unavailable (the delayed import fails)
or the split is infeasible (the solver call fails), the call fails with
exactly that distinct error kind, raised to the caller unchanged; the
function never silently falls back to plain or balanced splitting — in
particular it never returns `Except.ok`. -/
theorem C4_preserved_site_error_propagation
    (cvmod : Except SplitError SolverFn) (pd : PatientsDict)
    (patient_list : List String) (n : Nat) (balance method : String)
    (labels : List String) (e : SplitError)
    (hlab : mapExcept (patientLabel pd balance) patient_list = Except.ok labels)
    (hfail : cvmod = Except.error e ∨
      ∃ cv sites, cvmod = Except.ok cv ∧
        mapExcept (patientLabel pd "site") patient_list = Except.ok sites ∧
        cv (patient_list.zip (labels.zip sites)) n method = Except.error e) :
    split_patients_preserved_site cvmod pd patient_list n balance method =
      Except.error e := by
  unfold split_patients_preserved_site
  rcases hfail with he | ⟨cv, sites, hcv, hs, hsolve⟩
  · simp only [hlab, he]
  · simp only [hlab, hcv, hs, hsolve]

theorem C4_preserved_site_error_propagation_witness :
    (mapExcept (patientLabel [("A", [("o", "X"), ("site", "S1")])] "o") ["A"] =
      Except.ok ["X"]) ∧
    split_patients_preserved_site (Except.error SplitError.solverUnavailable)
      [("A", [("o", "X"), ("site", "S1")])] ["A"] 1 "o" "auto" =
      Except.error SplitError.solverUnavailable :=
  ⟨by rfl,
   C4_preserved_site_error_propagation (Except.error SplitError.solverUnavailable)
     [("A", [("o", "X"), ("site", "S1")])] ["A"] 1 "o" "auto" ["X"]
     SplitError.solverUnavailable (by rfl) (Or.inl rfl)⟩

/-! ### Injectivity of the decimal fold labels -/

theorem toDigitsCore_append (b : Nat) :
    ∀ (fuel n : Nat) (acc : List Char),
      Nat.toDigitsCore b fuel n acc = Nat.toDigitsCore b fuel n [] ++ acc := by
  intro fuel
  induction fuel with
  | zero => intro n acc; rfl
  | succ f ih =>
    intro n acc
    unfold Nat.toDigitsCore
    by_cases h : n / b = 0
    · simp only [if_pos h]
      rfl
    · simp only [if_neg h]
      rw [ih (n / b) (Nat.digitChar (n % b) :: acc), ih (n / b) [Nat.digitChar (n % b)]]
      rw [List.append_assoc, List.singleton_append]

theorem chlistToNat_digitChar : ∀ m, m < 10 → chlistToNat [Nat.digitChar m] = m := by
  decide

theorem chlistToNat_toDigitsCore :
    ∀ (fuel n : Nat), n < fuel →
      chlistToNat (Nat.toDigitsCore 10 fuel n []) = n := by
  intro fuel
  induction fuel with
  | zero => intro n h; omega
  | succ f ih =>
    intro n h
    unfold Nat.toDigitsCore
    by_cases h0 : n / 10 = 0
    · simp only [if_pos h0]
      have hn : n < 10 := by omega
      rw [Nat.mod_eq_of_lt hn]
      exact chlistToNat_digitChar n hn
    · simp only [if_neg h0]
      rw [toDigitsCore_append 10 f (n / 10) [Nat.digitChar (n % 10)]]
      unfold chlistToNat
      rw [List.foldl_append]
      show chlistToNat (Nat.toDigitsCore 10 f (n / 10) []) * 10 +
        ((Nat.digitChar (n % 10)).toNat - 48) = n
      have hdiv1 : n / 10 < n := Nat.div_lt_self (by omega) (by omega)
      rw [ih (n / 10) (by omega)]
      have hm : n % 10 < 10 := Nat.mod_lt _ (by omega)
      have hd := chlistToNat_digitChar (n % 10) hm
      unfold chlistToNat at hd
      simp only [List.foldl_cons, List.foldl_nil, Nat.zero_mul, Nat.zero_add] at hd
      rw [hd]
      have := Nat.div_add_mod n 10
      omega

theorem natToString_inj {a b : Nat} (h : (toString a : String) = toString b) :
    a = b := by
  have hdata : Nat.toDigits 10 a = Nat.toDigits 10 b := congrArg String.data h
  have ha := chlistToNat_toDigitsCore (a + 1) a (Nat.lt_succ_self a)
  have hb := chlistToNat_toDigitsCore (b + 1) b (Nat.lt_succ_self b)
  calc a = chlistToNat (Nat.toDigits 10 a) := ha.symm
    _ = chlistToNat (Nat.toDigits 10 b) := by rw [hdata]
    _ = b := hb

/-! ### Indexing the solver response -/

theorem getD_eq_elem_lt {l : List α} {i : Nat} (d : α) (h : i < l.length) :
    l.getD i d = l[i] := by
  rw [List.getD_eq_getElem?_getD, List.getElem?_eq_getElem h]
  rfl

theorem forall₂_getElem {R : α → β → Prop} :
    ∀ {l1 : List α} {l2 : List β}, List.Forall₂ R l1 l2 →
      l1.length = l2.length ∧
      ∀ i (h1 : i < l1.length) (h2 : i < l2.length), R (l1.get ⟨i, h1⟩) (l2.get ⟨i, h2⟩) := by
  intro l1 l2 hf
  induction hf with
  | nil => exact ⟨rfl, fun i h1 => absurd h1 (by simp)⟩
  | @cons a b as bs ha _ ih =>
    refine ⟨by simp [ih.1], ?_⟩
    intro i h1 h2
    cases i with
    | zero => exact ha
    | succ i => exact ih.2 i (by simpa using h1) (by simpa using h2)

theorem mem_zip_index {l1 l2 : List String} {p c : String}
    (h : (p, c) ∈ l1.zip l2) :
    ∃ k, k < l1.length ∧ k < l2.length ∧ l1.getD k "" = p ∧ l2.getD k "" = c := by
  obtain ⟨⟨k, hk⟩, hget⟩ := List.get_of_mem h
  have hklen := hk
  rw [List.length_zip] at hklen
  have hk1 : k < l1.length := lt_of_lt_of_le hklen (min_le_left _ _)
  have hk2 : k < l2.length := lt_of_lt_of_le hklen (min_le_right _ _)
  rw [List.get_eq_getElem, List.getElem_zip] at hget
  refine ⟨k, hk1, hk2, ?_, ?_⟩
  · rw [getD_eq_elem_lt "" hk1]
    exact congrArg Prod.fst hget
  · rw [getD_eq_elem_lt "" hk2]
    exact congrArg Prod.snd hget

theorem patientLabel_ok {pd : PatientsDict} {key p v : String}
    (h : patientLabel pd key p = Except.ok v) : labelOf pd key p = some v := by
  unfold patientLabel at h
  cases hl : labelOf pd key p <;> rw [hl] at h
  · cases h
  · cases h; rfl

theorem mapExcept_label_at_index {pd : PatientsDict} {key : String}
    {patient_list ys : List String}
    (h : mapExcept (patientLabel pd key) patient_list = Except.ok ys)
    {k : Nat} (hk : k < patient_list.length) :
    labelOf pd key (patient_list.getD k "") = some (ys.getD k "") := by
  obtain ⟨hlen, hget⟩ := forall₂_getElem (mapExcept_ok_forall₂ h)
  have hk2 : k < ys.length := by omega
  rw [getD_eq_elem_lt "" hk, getD_eq_elem_lt "" hk2]
  have := hget k hk hk2
  rw [List.get_eq_getElem, List.get_eq_getElem] at this
  exact patientLabel_ok this

theorem preserved_site_ok {cvmod : Except SplitError SolverFn} {pd : PatientsDict}
    {patient_list : List String} {n : Nat} {balance method : String}
    {cv : SolverFn} {labels sites cvs : List String}
    (hcv : cvmod = Except.ok cv)
    (hlab : mapExcept (patientLabel pd balance) patient_list = Except.ok labels)
    (hsites : mapExcept (patientLabel pd "site") patient_list = Except.ok sites)
    (hsolve : cv (patient_list.zip (labels.zip sites)) n method = Except.ok cvs) :
    split_patients_preserved_site cvmod pd patient_list n balance method =
      Except.ok ((List.range n).map fun ni =>
        ((patient_list.zip cvs).filter fun pc => pc.2 == toString (ni + 1)).map
          Prod.fst) := by
  unfold split_patients_preserved_site
  simp only [hlab, hcv, hsites, hsolve]

theorem preserved_group_mem {patient_list cvs : List String} {n i : Nat} (hi : i < n)
    {p : String}
    (hp : p ∈ (((List.range n).map fun ni =>
      ((patient_list.zip cvs).filter fun pc => pc.2 == toString (ni + 1)).map
        Prod.fst)).getD i []) :
    ∃ k, k < patient_list.length ∧ k < cvs.length ∧
      patient_list.getD k "" = p ∧ cvs.getD k "" = toString (i + 1) := by
  rw [getD_map_range _ _ hi] at hp
  obtain ⟨pc, hmem, hfst⟩ := List.mem_map.mp hp
  obtain ⟨hzip, hbeq⟩ := List.mem_filter.mp hmem
  cases pc with
  | mk p' c =>
    obtain ⟨k, hk1, hk2, hp1, hc1⟩ := mem_zip_index hzip
    have hc2 : c = toString (i + 1) := eq_of_beq hbeq
    exact ⟨k, hk1, hk2, by rw [hp1]; exact hfst, by rw [hc1, hc2]⟩

/-- C3: Whenever the external solver invoked by `split_preserved_site`
(`split_patients_preserved_site`) reports success — returning one fold label
per patient row and, per the spec's solver contract, never assigning
different fold labels to two rows carrying equal site identifiers — the
resulting groups never place two patients sharing the same site identifier
into different groups: patients with equal sites found in groups `i` and
`j` force `i = j`. -/
theorem C3_preserved_site_no_site_split
    (cvmod : Except SplitError SolverFn) (pd : PatientsDict)
    (patient_list : List String) (n : Nat) (balance method : String)
    (cv : SolverFn) (labels sites cvs : List String) (gs : List (List String))
    (hcv : cvmod = Except.ok cv)
    (hlab : mapExcept (patientLabel pd balance) patient_list = Except.ok labels)
    (hsites : mapExcept (patientLabel pd "site") patient_list = Except.ok sites)
    (hsolve : cv (patient_list.zip (labels.zip sites)) n method = Except.ok cvs)
    (hcontract : ∀ k, k < patient_list.length → ∀ l, l < patient_list.length →
      sites.getD k "" = sites.getD l "" → cvs.getD k "" = cvs.getD l "")
    (hok : split_patients_preserved_site cvmod pd patient_list n balance method =
      Except.ok gs) :
    ∀ i j, i < n → j < n → ∀ p q : String,
      p ∈ gs.getD i [] → q ∈ gs.getD j [] →
      labelOf pd "site" p = labelOf pd "site" q → i = j := by
  rw [preserved_site_ok hcv hlab hsites hsolve] at hok
  cases hok
  intro i j hi hj p q hp hq hsame
  obtain ⟨k, hk1, hk2, hpk, hck⟩ := preserved_group_mem hi hp
  obtain ⟨l, hl1, hl2, hpl, hcl⟩ := preserved_group_mem hj hq
  have hsk : labelOf pd "site" p = some (sites.getD k "") := by
    rw [← hpk]
    exact mapExcept_label_at_index hsites hk1
  have hsl : labelOf pd "site" q = some (sites.getD l "") := by
    rw [← hpl]
    exact mapExcept_label_at_index hsites hl1
  have hsites_eq : sites.getD k "" = sites.getD l "" := by
    rw [hsk, hsl] at hsame
    exact Option.some.inj hsame
  have hcvs_eq : cvs.getD k "" = cvs.getD l "" := hcontract k hk1 l hl1 hsites_eq
  rw [hck, hcl] at hcvs_eq
  have := natToString_inj hcvs_eq
  omega

theorem C3_preserved_site_no_site_split_witness :
    ((Except.ok (fun _ _ _ => Except.ok ["1", "1", "2", "2"]) :
        Except SplitError SolverFn) =
      Except.ok (fun _ _ _ => Except.ok ["1", "1", "2", "2"]) ∧
     mapExcept (patientLabel pdSites "o") ["A", "B", "C", "D"] =
      Except.ok ["X", "X", "Y", "Y"] ∧
     mapExcept (patientLabel pdSites "site") ["A", "B", "C", "D"] =
      Except.ok ["S1", "S1", "S2", "S2"] ∧
     split_patients_preserved_site
       (Except.ok (fun _ _ _ => Except.ok ["1", "1", "2", "2"]))
       pdSites ["A", "B", "C", "D"] 2 "o" "auto" =
      Except.ok [["A", "B"], ["C", "D"]]) ∧
    (∀ i j, i < 2 → j < 2 → ∀ p q : String,
      p ∈ ([["A", "B"], ["C", "D"]] : List (List String)).getD i [] →
      q ∈ ([["A", "B"], ["C", "D"]] : List (List String)).getD j [] →
      labelOf pdSites "site" p = labelOf pdSites "site" q → i = j) :=
  ⟨⟨rfl, by rfl, by rfl, by rfl⟩,
   C3_preserved_site_no_site_split
     (Except.ok (fun _ _ _ => Except.ok ["1", "1", "2", "2"]))
     pdSites ["A", "B", "C", "D"] 2 "o" "auto"
     (fun _ _ _ => Except.ok ["1", "1", "2", "2"])
     ["X", "X", "Y", "Y"] ["S1", "S1", "S2", "S2"] ["1", "1", "2", "2"]
     [["A", "B"], ["C", "D"]]
     rfl (by rfl) (by rfl) (by rfl) (by decide) (by rfl)⟩

/-! ### Group composition of the site-preserving split -/

theorem zip_nodup_snd_unique {l1 l2 : List String} (hnd : l1.Nodup)
    {p c c' : String} (h1 : (p, c) ∈ l1.zip l2) (h2 : (p, c') ∈ l1.zip l2) :
    c = c' := by
  obtain ⟨k, hk1, hk2, hpk, hck⟩ := mem_zip_index h1
  obtain ⟨l, hl1, hl2, hpl, hcl⟩ := mem_zip_index h2
  have hpp : l1.get ⟨k, hk1⟩ = l1.get ⟨l, hl1⟩ := by
    rw [List.get_eq_getElem, List.get_eq_getElem,
      ← getD_eq_elem_lt "" hk1, ← getD_eq_elem_lt "" hl1, hpk, hpl]
  have hkl : (⟨k, hk1⟩ : Fin l1.length) = ⟨l, hl1⟩ :=
    (List.Nodup.get_inj_iff hnd).mp hpp
  have hkl' : k = l := congrArg Fin.val hkl
  subst hkl'
  rw [← hck, ← hcl]

/-- C10: `split_patients_preserved_site` returns as group `k` (for `k` in
`0..n-1`) exactly the patients whose solver-assigned fold value equals the
string `str(k+1)`; a patient the solver assigns a value outside the strings
`"1"..toString n` is silently omitted from every returned group, with no
check that the union of the groups covers the input cohort (the call still
returns `ok`). -/
theorem C10_preserved_site_groups_by_fold
    (cvmod : Except SplitError SolverFn) (pd : PatientsDict)
    (patient_list : List String) (n : Nat) (balance method : String)
    (cv : SolverFn) (labels sites cvs : List String) (gs : List (List String))
    (hcv : cvmod = Except.ok cv)
    (hlab : mapExcept (patientLabel pd balance) patient_list = Except.ok labels)
    (hsites : mapExcept (patientLabel pd "site") patient_list = Except.ok sites)
    (hsolve : cv (patient_list.zip (labels.zip sites)) n method = Except.ok cvs)
    (hok : split_patients_preserved_site cvmod pd patient_list n balance method =
      Except.ok gs) :
    (∀ k, k < n → gs.getD k [] =
      ((patient_list.zip cvs).filter fun pc => pc.2 == toString (k + 1)).map
        Prod.fst) ∧
    (patient_list.Nodup → ∀ p c, (p, c) ∈ patient_list.zip cvs →
      (∀ k, k < n → c ≠ toString (k + 1)) → ∀ g ∈ gs, p ∉ g) := by
  rw [preserved_site_ok hcv hlab hsites hsolve] at hok
  cases hok
  constructor
  · intro k hk
    exact getD_map_range _ _ hk
  · intro hnd p c hzip hout g hg hpg
    obtain ⟨k, hkr, hgk⟩ := List.mem_map.mp hg
    rw [List.mem_range] at hkr
    rw [← hgk] at hpg
    obtain ⟨pc, hmem, hfst⟩ := List.mem_map.mp hpg
    obtain ⟨hz2, hbeq⟩ := List.mem_filter.mp hmem
    cases pc with
    | mk p' c' =>
      have hc' : c' = toString (k + 1) := eq_of_beq hbeq
      have hz3 : (p, c') ∈ patient_list.zip cvs := by
        rw [← hfst]
        exact hz2
      have hcc : c = c' := zip_nodup_snd_unique hnd hzip hz3
      exact hout k hkr (hcc.trans hc')

theorem C10_preserved_site_groups_by_fold_witness :
    ((Except.ok (fun _ _ _ => Except.ok ["1", "7"]) : Except SplitError SolverFn) =
      Except.ok (fun _ _ _ => Except.ok ["1", "7"]) ∧
     mapExcept (patientLabel [("A", [("o", "X"), ("site", "S1")]),
         ("B", [("o", "X"), ("site", "S2")])] "o") ["A", "B"] =
      Except.ok ["X", "X"] ∧
     mapExcept (patientLabel [("A", [("o", "X"), ("site", "S1")]),
         ("B", [("o", "X"), ("site", "S2")])] "site") ["A", "B"] =
      Except.ok ["S1", "S2"] ∧
     split_patients_preserved_site (Except.ok (fun _ _ _ => Except.ok ["1", "7"]))
       [("A", [("o", "X"), ("site", "S1")]), ("B", [("o", "X"), ("site", "S2")])]
       ["A", "B"] 1 "o" "auto" = Except.ok [["A"]]) ∧
    ((∀ k, k < 1 → ([["A"]] : List (List String)).getD k [] =
      (((["A", "B"] : List String).zip ["1", "7"]).filter fun pc =>
        pc.2 == toString (k + 1)).map Prod.fst) ∧
     ((["A", "B"] : List String).Nodup →
      ∀ p c, (p, c) ∈ (["A", "B"] : List String).zip ["1", "7"] →
      (∀ k, k < 1 → c ≠ toString (k + 1)) →
      ∀ g ∈ ([["A"]] : List (List String)), p ∉ g)) :=
  ⟨⟨rfl, by rfl, by rfl, by rfl⟩,
   C10_preserved_site_groups_by_fold
     (Except.ok (fun _ _ _ => Except.ok ["1", "7"]))
     [("A", [("o", "X"), ("site", "S1")]), ("B", [("o", "X"), ("site", "S2")])]
     ["A", "B"] 1 "o" "auto"
     (fun _ _ _ => Except.ok ["1", "7"]) ["X", "X"] ["S1", "S2"] ["1", "7"]
     [["A"]] rfl (by rfl) (by rfl) (by rfl) (by rfl)⟩

/-! ### Missing site key -/

theorem mapExcept_error_mem {f : α → Except ε β} :
    ∀ {l : List α} {e : ε}, mapExcept f l = Except.error e →
      ∃ x ∈ l, f x = Except.error e := by
  intro l
  induction l with
  | nil => intro e h; cases h
  | cons a as ih =>
    intro e h
    unfold mapExcept at h
    cases hfa : f a with
    | error e' =>
      rw [hfa] at h
      cases h
      exact ⟨a, List.mem_cons_self _ _, hfa⟩
    | ok y =>
      rw [hfa] at h
      cases hrest : mapExcept f as with
      | error e2 =>
        rw [hrest] at h
        cases h
        obtain ⟨x, hx, hfx⟩ := ih hrest
        exact ⟨x, List.mem_cons_of_mem _ hx, hfx⟩
      | ok ys => rw [hrest] at h; cases h

/-- C9 counterexample: the claim says a patient mapping with a record
lacking the `site` key always makes `split_patients_preserved_site` raise a
`KeyError`; but the delayed solver-module import at line 182 runs before
the `site` lookups at line 184, so when no solver backend is installed the
call fails with `solverUnavailable` instead — no `KeyError` is raised even
though patient `A` has no `site` key. -/
theorem C9_counterexample :
    isKeyError (split_patients_preserved_site
      (Except.error SplitError.solverUnavailable)
      [("A", [("o", "X")])] ["A"] 1 "o" "auto") = false ∧
    split_patients_preserved_site (Except.error SplitError.solverUnavailable)
      [("A", [("o", "X")])] ["A"] 1 "o" "auto" =
      Except.error SplitError.solverUnavailable := by
  constructor <;> rfl

/-- C9 amended: provided the delayed import of the solver module succeeds,
a patient mapping (with distinct keys) in which at least one record lacks
the `site` key makes `split_patients_preserved_site` fail with a
`KeyError`-kind error (`missingAttribute`), for every `n`, balance key and
solver method, and the result does not depend on the solver function — the
solver is never invoked.  (When some record also lacks the balance key the
`KeyError` raised is the balance one, which fires first.) -/
theorem C9_amended_site_key_error (cv cv' : SolverFn) (pd : PatientsDict)
    (patient_list : List String) (n : Nat) (balance method : String)
    (hnd : (dictKeys pd).Nodup)
    (hperm : patient_list.Perm (dictKeys pd))
    (hmiss : ∃ pr ∈ pd, pr.2.lookup "site" = none) :
    isKeyError (split_patients_preserved_site (Except.ok cv) pd patient_list n
      balance method) = true ∧
    split_patients_preserved_site (Except.ok cv) pd patient_list n balance method =
      split_patients_preserved_site (Except.ok cv') pd patient_list n balance
        method := by
  obtain ⟨⟨p0, r0⟩, hpr, hr0⟩ := hmiss
  have hp0 : p0 ∈ patient_list := by
    rw [hperm.mem_iff]
    exact List.mem_map.mpr ⟨(p0, r0), hpr, rfl⟩
  have herr : patientLabel pd "site" p0 =
      Except.error (SplitError.missingAttribute "site") := by
    have hnone : labelOf pd "site" p0 = none := by
      unfold labelOf
      rw [lookup_eq_of_nodup hnd hpr]
      simpa using hr0
    unfold patientLabel
    rw [hnone]
  have hsite : mapExcept (patientLabel pd "site") patient_list =
      Except.error (SplitError.missingAttribute "site") :=
    mapExcept_error_of_mem ⟨p0, hp0, herr⟩
      fun p _ e' he' => patientLabel_error_kind pd "site" p he'
  unfold split_patients_preserved_site
  cases hbal : mapExcept (patientLabel pd balance) patient_list with
  | error e =>
    obtain ⟨x, hx, hfx⟩ := mapExcept_error_mem hbal
    have he := patientLabel_error_kind pd balance x hfx
    subst he
    simp only [hbal]
    exact ⟨rfl, trivial⟩
  | ok labels =>
    simp only [hbal, hsite]
    exact ⟨rfl, trivial⟩

theorem C9_amended_site_key_error_witness :
    ((dictKeys [("A", [("o", "X")])]).Nodup ∧
     (["A"] : List String).Perm (dictKeys [("A", [("o", "X")])]) ∧
     (∃ pr ∈ ([("A", [("o", "X")])] : PatientsDict), pr.2.lookup "site" = none)) ∧
    (isKeyError (split_patients_preserved_site
        (Except.ok (fun _ _ _ => Except.ok ["1"]))
        [("A", [("o", "X")])] ["A"] 1 "o" "auto") = true ∧
     split_patients_preserved_site (Except.ok (fun _ _ _ => Except.ok ["1"]))
        [("A", [("o", "X")])] ["A"] 1 "o" "auto" =
      split_patients_preserved_site
        (Except.ok (fun _ _ _ => Except.error SplitError.infeasibleSplit))
        [("A", [("o", "X")])] ["A"] 1 "o" "auto") :=
  ⟨⟨by decide, by decide, by decide⟩,
   C9_amended_site_key_error (fun _ _ _ => Except.ok ["1"])
     (fun _ _ _ => Except.error SplitError.infeasibleSplit)
     [("A", [("o", "X")])] ["A"] 1 "o" "auto"
     (by decide) (by decide) (by decide)⟩

/-! ### The frame property -/

theorem mapExceptSt_state {f : PatientsDict → α → Except SplitError β × PatientsDict}
    (hf : ∀ st x, (f st x).2 = st) :
    ∀ (st : PatientsDict) (l : List α), (mapExceptSt f st l).2 = st := by
  intro st l
  induction l generalizing st with
  | nil => rfl
  | cons x xs ih =>
    simp only [mapExceptSt]
    split
    · rename_i e st1 heq
      have h2 := hf st x
      rw [heq] at h2
      exact h2
    · rename_i y st1 heq
      have h2 := hf st x
      rw [heq] at h2
      split
      · rename_i e st2 heq2
        have h3 := ih st1
        rw [heq2] at h3
        exact h3.trans h2
      · rename_i ys st2 heq2
        have h3 := ih st1
        rw [heq2] at h3
        exact h3.trans h2

theorem filterSt_state {f : PatientsDict → α → Bool × PatientsDict}
    (hf : ∀ st x, (f st x).2 = st) :
    ∀ (st : PatientsDict) (l : List α), (filterSt f st l).2 = st := by
  intro st l
  induction l generalizing st with
  | nil => rfl
  | cons x xs ih =>
    simp only [filterSt]
    rw [hf st x]
    exact ih st

theorem mapSt_state {f : PatientsDict → α → β × PatientsDict}
    (hf : ∀ st x, (f st x).2 = st) :
    ∀ (st : PatientsDict) (l : List α), (mapSt f st l).2 = st := by
  intro st l
  induction l generalizing st with
  | nil => rfl
  | cons x xs ih =>
    simp only [mapSt]
    rw [hf st x]
    exact ih st

/-- C8: none of the three splitting operations mutates its input: in the
state-threaded embeddings, where every dictionary access passes the
dictionary along explicitly, the dictionary coming out of any call — on the
success path and on every failure path, for every solver — is the input
dictionary unchanged (its keys and every patient's record). -/
theorem C8_no_mutation (cvmod : Except SplitError SolverFn) (pd : PatientsDict)
    (patient_list : List String) (n : Nat) (balance method : String) :
    (split_patients_track pd patient_list n).2 = pd ∧
    (split_patients_balanced_track pd patient_list n balance).2 = pd ∧
    (split_patients_preserved_site_track cvmod pd patient_list n balance
      method).2 = pd := by
  have hbal := mapExceptSt_state
    (f := fun st p => (patientLabel st balance p, st)) (fun _ _ => rfl)
  have hsite := mapExceptSt_state
    (f := fun st p => (patientLabel st "site" p, st)) (fun _ _ => rfl)
  refine ⟨rfl, ?_, ?_⟩
  · unfold split_patients_balanced_track
    split
    · rename_i e st1 heq
      have h1 := hbal pd patient_list
      rw [heq] at h1
      exact h1
    · rename_i labels st1 heq
      have h1 := hbal pd patient_list
      rw [heq] at h1
      simp only []
      have h2 := mapSt_state
        (f := fun st uo => filterSt
          (fun st2 p => (labelOf st2 balance p == some uo, st2)) st patient_list)
        (fun st uo => filterSt_state
          (f := fun st2 p => (labelOf st2 balance p == some uo, st2))
          (fun _ _ => rfl) st patient_list)
        st1 labels.dedup
      exact h2.trans h1
  · unfold split_patients_preserved_site_track
    split
    · rename_i e st1 heq
      have h1 := hbal pd patient_list
      rw [heq] at h1
      exact h1
    · rename_i labels st1 heq
      have h1 := hbal pd patient_list
      rw [heq] at h1
      cases cvmod with
      | error e => exact h1
      | ok cv =>
        simp only []
        split
        · rename_i e st2 heq2
          have h2 := hsite st1 patient_list
          rw [heq2] at h2
          exact h2.trans h1
        · rename_i site_list st2 heq2
          have h2 := hsite st1 patient_list
          rw [heq2] at h2
          cases cv (patient_list.zip (labels.zip site_list)) n method with
          | error e => exact h2.trans h1
          | ok cvs => exact h2.trans h1

end Slideflow
